import Mathlib

/-!
Verification of the fuel-core transaction-pool service specification.

The development embeds:
* the e2e test-client wallet helpers (`owns_coin`, `transfer_tx`, `transfer`)
  from `src/bin/e2e-test-client/src/test_context.rs`, translated directly
  from the Rust source; and
* the pool admission / gossip / notification engine, whose implementation
  is not part of the provided sources (only its tests under
  `src/crates/services/txpool/src/service/tests_p2p.rs` are), modelled
  from the specification.

Machine integers are modelled as `Nat`; the quantities involved (amounts,
gas prices, counts) never approach overflow in the modelled scenarios.
-/

namespace FuelCore

/-! ## Wallet test-client embedding (`test_context.rs`) -/

/-- The constant `pub const BASE_AMOUNT: u64 = 10_000;`. -/
def BASE_AMOUNT : Nat := 10000

/-- A UTXO identifier: `UtxoId::new(tx_id, output_index)`.  The transaction
id is modelled as a `Nat`. -/
structure UtxoId where
  tx_id : Nat
  output_index : Nat
deriving DecidableEq, Repr

/-- A coin as returned by the client `coins` query; only the field the
embedded code inspects (`utxo_id`) is kept. -/
structure ClientCoin where
  utxo_id : UtxoId
deriving DecidableEq, Repr

/-- One iteration state of the `while first_page || !results.is_empty()`
loop of `Wallet::owns_coin`.  The client call
`coins(&self.address, None, PaginationRequest { cursor: None, results: 100,
direction: Forward })` always carries cursor `None`, so every fetch returns
the same first page; the client is therefore modelled by that fixed page
`page`.  Fuel bounds the number of iterations: `none` means the loop has
not finished within the given fuel. -/
def ownsCoinLoop (page : List ClientCoin) (target : UtxoId) :
    Bool → List ClientCoin → Nat → Option Bool
  | _, _, 0 => none
  | first_page, results, fuel + 1 =>
    if first_page || !results.isEmpty then
      -- body: first_page = false; results = fetched page
      if page.any (fun coin => coin.utxo_id = target) then some true
      else ownsCoinLoop page target false page fuel
    else some false

/-- Entry point `Wallet::owns_coin(utxo_id)`: starts the loop with
`first_page = true` and `results = vec![]`. -/
def owns_coin (page : List ClientCoin) (target : UtxoId) (fuel : Nat) :
    Option Bool :=
  ownsCoinLoop page target true [] fuel

/-- Transaction outputs, restricted to the variants the embedded builder
code produces. -/
inductive Output where
  | Coin (toAddr : Nat) (amount : Nat) (asset_id : Nat)
  | Change (toAddr : Nat) (amount : Nat) (asset_id : Nat)
deriving DecidableEq, Repr

/-- A coin-or-message result of `coins_to_spend`; the builder loop only
consumes the `Coin` variant. -/
inductive CoinType where
  | Coin (utxo_id : UtxoId) (amount : Nat) (asset_id : Nat)
  | MessageCoin
deriving DecidableEq, Repr

/-- The script transaction assembled by `Wallet::transfer_tx`, keeping the
fields the builder sets. -/
structure ScriptTx where
  gas_price : Nat
  gas_limit : Nat
  inputs : List UtxoId
  outputs : List Output
deriving DecidableEq, Repr

/-- Builder `Wallet::transfer_tx(destination, transfer_amount, asset_id)`.
The selected coins (`coins_to_spend` result) are a parameter, as coin
selection happens on the remote client.  The builder adds one unsigned
coin input per `CoinType::Coin`, then `Output::Coin` to the destination
and `Output::Change` back to the wallet's own address, in that order. -/
def transfer_tx (self_address : Nat) (destination : Nat)
    (transfer_amount : Nat) (asset_id : Option Nat)
    (coins : List CoinType) : ScriptTx :=
  let asset_id := asset_id.getD 0
  { gas_price := 1
    gas_limit := BASE_AMOUNT
    inputs := coins.filterMap fun c =>
      match c with
      | .Coin utxo _ _ => some utxo
      | .MessageCoin => none
    outputs := [Output.Coin destination transfer_amount asset_id,
                Output.Change self_address 0 asset_id] }

/-- Transaction status as reported by the client after commit. -/
inductive TransactionStatus where
  | Submitted
  | Success
  | Failure
  | SqueezedOut
deriving DecidableEq, Repr

/-- Result record of `Wallet::transfer`. -/
structure TransferResult where
  tx_id : Nat
  transferred_utxo : UtxoId
  success : Bool
  status : TransactionStatus
deriving DecidableEq, Repr

/-- Operation `Wallet::transfer(destination, transfer_amount, asset_id)`: builds the
transfer transaction, submits it (the chain-assigned `tx_id` and the
commit `status` are parameters, both produced remotely), and reports
`UtxoId::new(tx_id, 0)` as the transferred coin. -/
def transfer (self_address : Nat) (destination : Nat)
    (transfer_amount : Nat) (asset_id : Option Nat)
    (coins : List CoinType) (tx_id : Nat) (status : TransactionStatus) :
    ScriptTx × TransferResult :=
  let tx := transfer_tx self_address destination transfer_amount asset_id coins
  (tx,
   { tx_id := tx_id
     transferred_utxo := UtxoId.mk tx_id 0
     success := status = TransactionStatus.Success
     status := status })

/-! ## Transaction pool engine

Modelled from the spec: the pool implementation (admission engine, gossip
synchronization layer, status fanout) is not among the provided sources;
only its tests are.  The definitions below follow the specification's
component design (sections 3 and 4) literally. -/

namespace Pool

/-- Modelled from the spec: a candidate transaction.  The spec's
`PooledTransaction.id` is a content-derived, collision-free hash of the
transaction's canonical encoding, so id equality coincides with content
equality; the id is therefore modelled as the transaction content itself
(a perfect hash).  `inputs` is the ordered sequence of consumed UTXO
references (`Nat`); `gasPrice` is the priority metric the eviction policy
consults. -/
structure Tx where
  inputs : List Nat
  gasPrice : Nat
  nonce : Nat
deriving DecidableEq, Repr

/-- Modelled from the spec: transaction provenance, set once at admission. -/
inductive Provenance where
  | Local
  | Network
deriving DecidableEq, Repr

/-- Modelled from the spec: per-transaction lifecycle status. -/
inductive TxStatus where
  | Submitted
  | Success
  | Failure
  | SqueezedOut
deriving DecidableEq, Repr

/-- A status is terminal iff it is not `Submitted`. -/
def TxStatus.isTerminal : TxStatus → Bool
  | .Submitted => false
  | _ => true

/-- Modelled from the spec: a Pending Set entry — the transaction body
plus pool-local metadata (provenance, status, admission time used as the
eviction tie-break). -/
structure PooledTx where
  tx : Tx
  provenance : Provenance
  status : TxStatus
  insertTime : Nat
deriving DecidableEq, Repr

/-- Modelled from the spec: the Conflict Index entries derived from a
pending set — one `(utxo reference, owner id)` pair per consumed input. -/
def indexOf (pending : List PooledTx) : List (Nat × Tx) :=
  pending.flatMap fun p => p.tx.inputs.map fun u => (u, p.tx)

/-- Modelled from the spec: pool state — Pending Set, Conflict Index,
capacity, and a logical clock stamping admission times. -/
structure PoolState where
  pending : List PooledTx
  conflictIndex : List (Nat × Tx)
  capacity : Nat
  clock : Nat
deriving DecidableEq, Repr

/-- The empty pool. -/
def emptyPool (capacity : Nat) : PoolState :=
  { pending := [], conflictIndex := [], capacity := capacity, clock := 0 }

/-- Modelled from the spec (section 4.1): `conflicts(tx, pending_set)` —
ids of the pending transactions whose consumed-UTXO sets intersect the
candidate's.  Pure; absence of conflict is the empty list. -/
def conflicts (tx : Tx) (pending : List PooledTx) : List Tx :=
  (pending.filter fun p => p.tx.inputs.any fun u => tx.inputs.contains u).map
    fun p => p.tx

/-- Modelled from the spec: pool error taxonomy (section 7); duplicates
are success, `NotFound` is an absent result, so only these two surface. -/
inductive PoolError where
  | ConflictingInput (ids : List Tx)
  | PoolFull
deriving DecidableEq, Repr

/-- Modelled from the spec: the successful-insertion outcome carrying the
inserted transaction (the tests read `result.inserted.id()`). -/
structure InsertionOutcome where
  inserted : Tx
deriving DecidableEq, Repr

/-- Modelled from the spec: eviction preference — `p` is strictly lower
priority than `q` iff `p` has the lower gas price, with older insertion
time as the tie-break. -/
def lowerPriority (p q : PooledTx) : Bool :=
  p.tx.gasPrice < q.tx.gasPrice ||
    (p.tx.gasPrice = q.tx.gasPrice && p.insertTime < q.insertTime)

/-- Modelled from the spec: the eviction candidate — the lowest-priority
pending transaction (lowest gas price first, oldest insertion time as
tie-break). -/
def selectVictim : List PooledTx → Option PooledTx
  | [] => none
  | p :: rest =>
    match selectVictim rest with
    | none => some p
    | some q => if lowerPriority q p then some q else some p

/-- Modelled from the spec: remove the entries with the given ids from the
Pending Set and the Conflict Index together. -/
def dropIds (st : PoolState) (ids : List Tx) : PoolState :=
  { st with
    pending := st.pending.filter fun p => ! ids.contains p.tx
    conflictIndex := st.conflictIndex.filter fun e => ! ids.contains e.2 }

/-- Modelled from the spec: admit a transaction — status `Submitted`,
added to the Pending Set and the Conflict Index in one step, stamped with
the current clock. -/
def admitTx (st : PoolState) (tx : Tx) (prov : Provenance) : PoolState :=
  { pending := st.pending ++
      [{ tx := tx, provenance := prov, status := .Submitted,
         insertTime := st.clock }]
    conflictIndex := st.conflictIndex ++ tx.inputs.map fun u => (u, tx)
    capacity := st.capacity
    clock := st.clock + 1 }

/-- Modelled from the spec (section 4.2): `insert(tx, provenance)`.
Checks, in order: duplicate id (no-op success), conflicting inputs
(`ConflictingInput` naming the colliding ids), capacity.  At capacity,
if the incoming transaction has lower priority than every eviction
candidate the insertion fails with `PoolFull`; otherwise the
lowest-priority pending transaction is evicted and admission is retried
exactly once. -/
def insert (st : PoolState) (tx : Tx) (prov : Provenance) :
    PoolState × Except PoolError InsertionOutcome :=
  if st.pending.any fun p => p.tx = tx then
    (st, .ok ⟨tx⟩)
  else if conflicts tx st.pending ≠ [] then
    (st, .error (.ConflictingInput (conflicts tx st.pending)))
  else if st.pending.length < st.capacity then
    (admitTx st tx prov, .ok ⟨tx⟩)
  else if st.pending.all fun p => tx.gasPrice < p.tx.gasPrice then
    (st, .error .PoolFull)
  else
    match selectVictim st.pending with
    | none => (st, .error .PoolFull)
    | some v =>
      let st' := dropIds st [v.tx]
      if st'.pending.length < st'.capacity then (admitTx st' tx prov, .ok ⟨tx⟩)
      else (st', .error .PoolFull)

/-- Modelled from the spec (section 4.2): `remove(ids, reason)` — removes
matching entries from the Pending Set and Conflict Index, returning the
removed count. -/
def remove (st : PoolState) (ids : List Tx) : PoolState × Nat :=
  (dropIds st ids, (st.pending.filter fun p => ids.contains p.tx).length)

/-- Modelled from the spec (section 4.2): `find(ids)` — one slot per
requested id, preserving request order; absent ids yield `none`. -/
def find (st : PoolState) (ids : List Tx) : List (Option PooledTx) :=
  ids.map fun i => st.pending.find? fun p => p.tx = i

/-- Modelled from the spec (section 6): outbound gossip events. -/
inductive P2pRequestEvent where
  | BroadcastNewTransaction (transaction : Tx)
deriving DecidableEq, Repr

/-- Modelled from the spec (section 4.3): the gossip synchronization
layer's outbound decision — exactly one `BroadcastNewTransaction` on a
successful `Local` admission, nothing on a `Network` admission, nothing
on a rejected insertion. -/
def gossipEvents (prov : Provenance)
    (res : Except PoolError InsertionOutcome) : List P2pRequestEvent :=
  match res, prov with
  | .ok out, .Local => [.BroadcastNewTransaction out.inserted]
  | .ok _, .Network => []
  | .error _, _ => []

/-- Modelled from the spec (section 4.4): status events published for one
insertion — the initial `Submitted` on admission, nothing on rejection. -/
def statusEventsOfInsert (tx : Tx)
    (res : Except PoolError InsertionOutcome) : List (Tx × TxStatus) :=
  match res with
  | .ok _ => [(tx, .Submitted)]
  | .error _ => []

/-- Modelled from the spec: one full pass of an insertion request through
the admission engine, the status fanout and the gossip layer — the new
state, the caller's result, the status events, and the outbound gossip
events. -/
def processInsert (st : PoolState) (tx : Tx) (prov : Provenance) :
    PoolState × Except PoolError InsertionOutcome × List (Tx × TxStatus) ×
      List P2pRequestEvent :=
  let (st', res) := insert st tx prov
  (st', res, statusEventsOfInsert tx res, gossipEvents prov res)

/-- Modelled from the spec: a confirmation signal
(`mark_confirmed` / `mark_conflicts_resolved`) drives a pending
transaction's status from `Submitted` to a terminal state. -/
def markStatus (st : PoolState) (i : Tx) (s : TxStatus) : PoolState :=
  { st with
    pending := st.pending.map fun p =>
      if p.tx = i ∧ p.status = TxStatus.Submitted ∧ s.isTerminal then
        { p with status := s }
      else p }

/-- Modelled from the spec: the reachable pool states — those produced
from an empty pool by any sequence of insert, remove and status-marking
operations. -/
inductive Reachable : PoolState → Prop
  | init (capacity : Nat) : Reachable (emptyPool capacity)
  | step_insert {st : PoolState} (tx : Tx) (prov : Provenance) :
      Reachable st → Reachable (insert st tx prov).1
  | step_remove {st : PoolState} (ids : List Tx) :
      Reachable st → Reachable (remove st ids).1
  | step_mark {st : PoolState} (i : Tx) (s : TxStatus) :
      Reachable st → Reachable (markStatus st i s)

/-- Modelled from the spec (section 4.2): the per-transaction status
machine — `Submitted` is the sole initial state, reached at admission,
and only the terminal states may follow it.  `statusStep cur s` says the
status stream may emit `s` for a transaction whose last emitted status is
`cur` (`none` before admission). -/
def statusStep : Option TxStatus → TxStatus → Bool
  | none, .Submitted => true
  | none, _ => false
  | some .Submitted, s => s.isTerminal
  | some _, _ => false

/-- A status-event sequence for one transaction id is valid iff each
event is allowed by `statusStep` from the previous one. -/
def validSeq : Option TxStatus → List TxStatus → Bool
  | _, [] => true
  | cur, s :: rest => statusStep cur s && validSeq (some s) rest

/-! ### Pool invariants -/

/-- No two entries of a pending list share an id. -/
def UniqueIds (pending : List PooledTx) : Prop :=
  pending.Pairwise fun p q => p.tx ≠ q.tx

/-- Pairwise disjointness of consumed-UTXO sets across a pending list. -/
def DisjointSpends (pending : List PooledTx) : Prop :=
  pending.Pairwise fun p q => ∀ u ∈ p.tx.inputs, u ∉ q.tx.inputs

/-- The pool invariant: unique ids, no double-spend, the Conflict Index in
lock-step with the Pending Set, and the capacity bound. -/
def PoolInv (st : PoolState) : Prop :=
  UniqueIds st.pending ∧ DisjointSpends st.pending ∧
    st.conflictIndex = indexOf st.pending ∧
    st.pending.length ≤ st.capacity

lemma conflicts_eq_nil_iff {tx : Tx} {pending : List PooledTx} :
    conflicts tx pending = [] ↔
      ∀ p ∈ pending, ∀ u ∈ p.tx.inputs, u ∉ tx.inputs := by
  simp [conflicts, List.filter_eq_nil_iff]

lemma mem_conflicts {tx : Tx} {pending : List PooledTx} {i : Tx} :
    i ∈ conflicts tx pending ↔
      ∃ p ∈ pending, p.tx = i ∧ ∃ u ∈ p.tx.inputs, u ∈ tx.inputs := by
  simp only [conflicts, List.mem_map, List.mem_filter, List.any_eq_true,
    List.elem_iff, decide_eq_true_eq]
  constructor
  · rintro ⟨a, ⟨ha, x, hx, hxt⟩, hat⟩
    exact ⟨a, ha, hat, x, hx, hxt⟩
  · rintro ⟨p, hp, hpt, u, hu, hut⟩
    exact ⟨p, ⟨hp, u, hu, hut⟩, hpt⟩

lemma indexOf_append (l₁ l₂ : List PooledTx) :
    indexOf (l₁ ++ l₂) = indexOf l₁ ++ indexOf l₂ := by
  simp [indexOf]

lemma mem_indexOf {pending : List PooledTx} {u : Nat} {i : Tx} :
    (u, i) ∈ indexOf pending ↔ ∃ p ∈ pending, p.tx = i ∧ u ∈ p.tx.inputs := by
  simp only [indexOf, List.mem_flatMap, List.mem_map, Prod.mk.injEq]
  constructor
  · rintro ⟨p, hp, a, ha, hau, hat⟩
    exact ⟨p, hp, hat, hau ▸ ha⟩
  · rintro ⟨p, hp, hat, hu⟩
    exact ⟨p, hp, u, hu, rfl, hat⟩

lemma indexOf_filter (pending : List PooledTx) (ids : List Tx) :
    indexOf (pending.filter fun p => ! ids.contains p.tx)
      = (indexOf pending).filter fun e => ! ids.contains e.2 := by
  induction pending with
  | nil => rfl
  | cons p rest ih =>
    have hcons : indexOf (p :: rest)
        = (p.tx.inputs.map fun u => (u, p.tx)) ++ indexOf rest := by
      simp [indexOf]
    by_cases h : p.tx ∈ ids
    · have h1 : ((p.tx.inputs.map fun u => (u, p.tx)).filter
          fun e => ! ids.contains e.2) = [] := by
        refine List.filter_eq_nil_iff.mpr ?_
        intro e hm
        rcases List.mem_map.mp hm with ⟨a, _, rfl⟩
        simp [h]
      rw [List.filter_cons_of_neg (by simp [h]), ih, hcons,
        List.filter_append, h1, List.nil_append]
    · have h1 : ((p.tx.inputs.map fun u => (u, p.tx)).filter
          fun e => ! ids.contains e.2) = p.tx.inputs.map fun u => (u, p.tx) := by
        refine List.filter_eq_self.mpr ?_
        intro e hm
        rcases List.mem_map.mp hm with ⟨a, _, rfl⟩
        simp [h]
      rw [List.filter_cons_of_pos (by simp [h]), hcons, List.filter_append, h1]
      have hcons' : indexOf (p :: rest.filter fun q => ! ids.contains q.tx)
          = (p.tx.inputs.map fun u => (u, p.tx))
            ++ indexOf (rest.filter fun q => ! ids.contains q.tx) := by
        simp [indexOf]
      rw [hcons', ih]

lemma indexOf_map_of_tx_eq (pending : List PooledTx) (f : PooledTx → PooledTx)
    (hf : ∀ p, (f p).tx = p.tx) :
    indexOf (pending.map f) = indexOf pending := by
  induction pending with
  | nil => rfl
  | cons p rest ih => simp [indexOf, hf] at *; simpa [indexOf] using ih

lemma length_filter_not_add {α : Type} (l : List α) (q : α → Bool) :
    (l.filter fun a => ! q a).length + (l.filter q).length = l.length := by
  induction l with
  | nil => rfl
  | cons a rest ih =>
    by_cases h : q a <;> simp [List.filter_cons, h] <;> omega

lemma filter_eq_tx_length_one {l : List PooledTx}
    (hnd : l.Pairwise fun p q => p.tx ≠ q.tx) {p : PooledTx} (hp : p ∈ l) :
    (l.filter fun q => q.tx = p.tx).length = 1 := by
  induction l with
  | nil => cases hp
  | cons a rest ih =>
    rcases List.pairwise_cons.mp hnd with ⟨ha, hrest⟩
    rcases List.mem_cons.mp hp with rfl | hp'
    · have : (rest.filter fun q => q.tx = p.tx) = [] := by
        refine List.filter_eq_nil_iff.mpr ?_
        intro q hq
        simp [(ha q hq).symm]
      simp [List.filter_cons, this]
    · have hne : a.tx ≠ p.tx := ha p hp'
      simp [List.filter_cons, hne, ih hrest hp']

lemma lowerPriority_neg_trans {a b c : PooledTx}
    (h₁ : lowerPriority a b = false) (h₂ : lowerPriority b c = false) :
    lowerPriority a c = false := by
  simp [lowerPriority] at *
  omega

lemma selectVictim_mem {l : List PooledTx} {v : PooledTx}
    (h : selectVictim l = some v) : v ∈ l := by
  induction l generalizing v with
  | nil => cases h
  | cons p rest ih =>
    rcases hrec : selectVictim rest with _ | q
    · simp [selectVictim, hrec] at h
      subst h
      exact List.mem_cons_self _ _
    · by_cases hlt : lowerPriority q p = true
      · simp [selectVictim, hrec, hlt] at h
        subst h
        exact List.mem_cons_of_mem _ (ih hrec)
      · simp [selectVictim, hrec, hlt] at h
        subst h
        exact List.mem_cons_self _ _

lemma selectVictim_isSome {l : List PooledTx} (h : l ≠ []) :
    ∃ v, selectVictim l = some v := by
  cases l with
  | nil => exact absurd rfl h
  | cons p rest =>
    simp only [selectVictim]
    rcases selectVictim rest with _ | q
    · exact ⟨p, rfl⟩
    · by_cases hlt : lowerPriority q p = true <;> simp [hlt]

lemma selectVictim_min {l : List PooledTx} {v : PooledTx}
    (h : selectVictim l = some v) :
    ∀ p ∈ l, lowerPriority p v = false := by
  induction l generalizing v with
  | nil => cases h
  | cons p rest ih =>
    intro r hr
    rcases hrec : selectVictim rest with _ | q
    · have hrest : rest = [] := by
        cases rest with
        | nil => rfl
        | cons a tail =>
          rcases selectVictim_isSome (l := a :: tail) (by simp) with ⟨w, hw⟩
          rw [hw] at hrec
          cases hrec
      subst hrest
      simp [selectVictim] at h
      subst h
      rcases List.mem_cons.mp hr with rfl | hr'
      · simp [lowerPriority]
      · cases hr'
    · by_cases hlt : lowerPriority q p = true
      · simp [selectVictim, hrec, hlt] at h
        subst h
        rcases List.mem_cons.mp hr with rfl | hr'
        · -- r = p: q is strictly better than p, so p is not better than q
          simp [lowerPriority] at hlt ⊢
          omega
        · exact ih hrec r hr'
      · simp [selectVictim, hrec, hlt] at h
        subst h
        rcases List.mem_cons.mp hr with rfl | hr'
        · simp [lowerPriority]
        · have h1 := ih hrec r hr'
          have h2 : lowerPriority q p = false := by
            simpa using hlt
          exact lowerPriority_neg_trans h1 h2


/-- Exhaustive branch analysis of `insert`, following the spec's order of
checks: duplicate, conflicts, capacity, eviction. -/
lemma insert_cases (st : PoolState) (tx : Tx) (prov : Provenance) :
    ((∃ p ∈ st.pending, p.tx = tx) ∧ insert st tx prov = (st, .ok ⟨tx⟩))
  ∨ ((∀ p ∈ st.pending, p.tx ≠ tx) ∧ conflicts tx st.pending ≠ [] ∧
      insert st tx prov
        = (st, .error (.ConflictingInput (conflicts tx st.pending))))
  ∨ ((∀ p ∈ st.pending, p.tx ≠ tx) ∧ conflicts tx st.pending = [] ∧
      st.pending.length < st.capacity ∧
      insert st tx prov = (admitTx st tx prov, .ok ⟨tx⟩))
  ∨ ((∀ p ∈ st.pending, p.tx ≠ tx) ∧ conflicts tx st.pending = [] ∧
      ¬ st.pending.length < st.capacity ∧
      (st.pending.all fun p => tx.gasPrice < p.tx.gasPrice) = true ∧
      insert st tx prov = (st, .error .PoolFull))
  ∨ (∃ v, (∀ p ∈ st.pending, p.tx ≠ tx) ∧ conflicts tx st.pending = [] ∧
      ¬ st.pending.length < st.capacity ∧
      (st.pending.all fun p => tx.gasPrice < p.tx.gasPrice) = false ∧
      selectVictim st.pending = some v ∧
      (((dropIds st [v.tx]).pending.length < st.capacity ∧
          insert st tx prov = (admitTx (dropIds st [v.tx]) tx prov, .ok ⟨tx⟩))
        ∨ (¬ (dropIds st [v.tx]).pending.length < st.capacity ∧
          insert st tx prov = (dropIds st [v.tx], .error .PoolFull)))) := by
  by_cases hdup : (st.pending.any fun p => p.tx = tx) = true
  · exact Or.inl ⟨by simpa using hdup, by simp [insert, hdup]⟩
  · have hfresh : ∀ p ∈ st.pending, p.tx ≠ tx := by simpa using hdup
    by_cases hconf : conflicts tx st.pending = []
    · by_cases hroom : st.pending.length < st.capacity
      · exact Or.inr (Or.inr (Or.inl
          ⟨hfresh, hconf, hroom, by simp [insert, hdup, hconf, hroom]⟩))
      · by_cases hall : (st.pending.all fun p => tx.gasPrice < p.tx.gasPrice)
            = true
        · exact Or.inr (Or.inr (Or.inr (Or.inl
            ⟨hfresh, hconf, hroom, hall,
             by simp [insert, hdup, hconf, hroom, hall]⟩)))
        · have hne : st.pending ≠ [] := by
            intro hnil
            rw [hnil] at hall
            simp at hall
          rcases selectVictim_isSome hne with ⟨v, hv⟩
          refine Or.inr (Or.inr (Or.inr (Or.inr
            ⟨v, hfresh, hconf, hroom, by simpa using hall, hv, ?_⟩)))
          by_cases hroom2 : (dropIds st [v.tx]).pending.length < st.capacity
          · refine Or.inl ⟨hroom2, ?_⟩
            simp [insert, hdup, hconf, hroom, hall, hv]
            simpa [dropIds] using hroom2
          · refine Or.inr ⟨hroom2, ?_⟩
            simp [insert, hdup, hconf, hroom, hall, hv]
            simpa [dropIds] using hroom2
    · exact Or.inr (Or.inl ⟨hfresh, hconf, by simp [insert, hdup, hconf]⟩)

lemma poolInv_empty (capacity : Nat) : PoolInv (emptyPool capacity) :=
  ⟨List.Pairwise.nil, List.Pairwise.nil, rfl, by simp [emptyPool]⟩

lemma poolInv_dropIds {st : PoolState} (h : PoolInv st) (ids : List Tx) :
    PoolInv (dropIds st ids) := by
  obtain ⟨h1, h2, h3, h4⟩ := h
  refine ⟨List.Pairwise.sublist (List.filter_sublist _) h1,
    List.Pairwise.sublist (List.filter_sublist _) h2, ?_, ?_⟩
  · show st.conflictIndex.filter _ = indexOf (st.pending.filter _)
    rw [h3, indexOf_filter]
  · exact le_trans (List.length_filter_le _ _) h4

lemma poolInv_admit {st : PoolState} {tx : Tx} {prov : Provenance}
    (h : PoolInv st) (hfresh : ∀ p ∈ st.pending, p.tx ≠ tx)
    (hconf : conflicts tx st.pending = [])
    (hroom : st.pending.length < st.capacity) :
    PoolInv (admitTx st tx prov) := by
  obtain ⟨h1, h2, h3, h4⟩ := h
  have hdis := conflicts_eq_nil_iff.mp hconf
  refine ⟨?_, ?_, ?_, ?_⟩
  · simp only [UniqueIds, admitTx]
    rw [List.pairwise_append]
    refine ⟨h1, List.pairwise_singleton _ _, ?_⟩
    intro a ha b hb
    rcases List.mem_singleton.mp hb with rfl
    exact hfresh a ha
  · simp only [DisjointSpends, admitTx]
    rw [List.pairwise_append]
    refine ⟨h2, List.pairwise_singleton _ _, ?_⟩
    intro a ha b hb
    rcases List.mem_singleton.mp hb with rfl
    exact hdis a ha
  · simp only [admitTx]
    rw [indexOf_append, h3]
    simp [indexOf]
  · simp only [admitTx, List.length_append, List.length_singleton]
    omega

lemma poolInv_insert {st : PoolState} (h : PoolInv st) (tx : Tx)
    (prov : Provenance) : PoolInv (insert st tx prov).1 := by
  rcases insert_cases st tx prov with
    ⟨_, heq⟩ | ⟨_, _, heq⟩ | ⟨hfresh, hconf, hroom, heq⟩ | ⟨_, _, _, _, heq⟩ |
    ⟨v, hfresh, hconf, _, _, _, ⟨hroom2, heq⟩ | ⟨_, heq⟩⟩
  · rw [heq]; exact h
  · rw [heq]; exact h
  · rw [heq]; exact poolInv_admit h hfresh hconf hroom
  · rw [heq]; exact h
  · rw [heq]
    have hdrop := poolInv_dropIds h [v.tx]
    refine poolInv_admit hdrop ?_ ?_ ?_
    · intro p hp
      exact hfresh p (List.mem_of_mem_filter hp)
    · refine conflicts_eq_nil_iff.mpr ?_
      intro p hp
      exact conflicts_eq_nil_iff.mp hconf p (List.mem_of_mem_filter hp)
    · show (dropIds st [v.tx]).pending.length < st.capacity
      exact hroom2
  · rw [heq]; exact poolInv_dropIds h [v.tx]

lemma poolInv_remove {st : PoolState} (h : PoolInv st) (ids : List Tx) :
    PoolInv (remove st ids).1 :=
  poolInv_dropIds h ids

lemma poolInv_markStatus {st : PoolState} (h : PoolInv st) (i : Tx)
    (s : TxStatus) : PoolInv (markStatus st i s) := by
  obtain ⟨h1, h2, h3, h4⟩ := h
  have htx : ∀ p : PooledTx,
      ((if p.tx = i ∧ p.status = TxStatus.Submitted ∧ s.isTerminal then
          { p with status := s } else p) : PooledTx).tx = p.tx := by
    intro p
    split <;> rfl
  refine ⟨?_, ?_, ?_, ?_⟩
  · simp only [UniqueIds, markStatus]
    rw [List.pairwise_map]
    exact h1.imp fun hpq => by simpa [htx] using hpq
  · simp only [DisjointSpends, markStatus]
    rw [List.pairwise_map]
    exact h2.imp fun hpq => by simpa [htx] using hpq
  · simp only [markStatus]
    rw [indexOf_map_of_tx_eq _ _ htx]
    exact h3
  · simp only [markStatus, List.length_map]
    exact h4

/-- Every reachable pool state satisfies the pool invariant. -/
lemma poolInv_reachable {st : PoolState} (h : Reachable st) : PoolInv st := by
  induction h with
  | init capacity => exact poolInv_empty capacity
  | step_insert tx prov _ ih => exact poolInv_insert ih tx prov
  | step_remove ids _ ih => exact poolInv_remove ih ids
  | step_mark i s _ ih => exact poolInv_markStatus ih i s

lemma insert_duplicate {st : PoolState} {tx : Tx} (prov : Provenance)
    (h : ∃ p ∈ st.pending, p.tx = tx) :
    insert st tx prov = (st, .ok ⟨tx⟩) := by
  have hdup : (st.pending.any fun p => p.tx = tx) = true := by simpa using h
  simp [insert, hdup]

lemma insert_conflict_eq {st : PoolState} {tx : Tx} (prov : Provenance)
    (hfresh : ∀ p ∈ st.pending, p.tx ≠ tx)
    (hne : conflicts tx st.pending ≠ []) :
    insert st tx prov
      = (st, .error (.ConflictingInput (conflicts tx st.pending))) := by
  have hdup : (st.pending.any fun p => p.tx = tx) = false := by
    simpa using hfresh
  simp [insert, hdup, hne]

lemma insert_ok_inserted {st : PoolState} {tx : Tx} {prov : Provenance}
    {out : InsertionOutcome} (h : (insert st tx prov).2 = .ok out) :
    out = ⟨tx⟩ := by
  rcases insert_cases st tx prov with
    ⟨_, heq⟩ | ⟨_, _, heq⟩ | ⟨_, _, _, heq⟩ | ⟨_, _, _, _, heq⟩ |
    ⟨v, _, _, _, _, _, ⟨_, heq⟩ | ⟨_, heq⟩⟩ <;>
    rw [heq] at h <;> simp at h <;> exact h.symm

lemma insert_ok_mem {st : PoolState} {tx : Tx} {prov : Provenance}
    {out : InsertionOutcome} (h : (insert st tx prov).2 = .ok out) :
    ∃ p ∈ (insert st tx prov).1.pending, p.tx = tx := by
  rcases insert_cases st tx prov with
    ⟨⟨p, hp, hptx⟩, heq⟩ | ⟨_, _, heq⟩ | ⟨_, _, _, heq⟩ | ⟨_, _, _, _, heq⟩ |
    ⟨v, _, _, _, _, _, ⟨_, heq⟩ | ⟨_, heq⟩⟩
  · rw [heq]
    exact ⟨p, hp, hptx⟩
  · rw [heq] at h; simp at h
  · rw [heq]
    exact ⟨_, List.mem_append_right _ (List.mem_singleton_self _), rfl⟩
  · rw [heq] at h; simp at h
  · rw [heq]
    exact ⟨_, List.mem_append_right _ (List.mem_singleton_self _), rfl⟩
  · rw [heq] at h; simp at h

lemma dropIds_single_length {st : PoolState} (h1 : UniqueIds st.pending)
    {v : PooledTx} (hv : v ∈ st.pending) :
    (dropIds st [v.tx]).pending.length + 1 = st.pending.length := by
  have hfil : (st.pending.filter fun p => [v.tx].contains p.tx)
      = st.pending.filter fun p => p.tx = v.tx := by
    refine List.filter_congr ?_
    intro p _
    simp
  have hone := filter_eq_tx_length_one h1 hv
  have hadd := length_filter_not_add st.pending fun p => [v.tx].contains p.tx
  simp only [dropIds]
  rw [hfil] at hadd
  omega

lemma insert_error_unchanged {st : PoolState} (hInv : PoolInv st) {tx : Tx}
    {prov : Provenance} {st' : PoolState} {e : PoolError}
    (h : insert st tx prov = (st', .error e)) : st' = st := by
  rcases insert_cases st tx prov with
    ⟨_, heq⟩ | ⟨_, _, heq⟩ | ⟨_, _, _, heq⟩ | ⟨_, _, _, _, heq⟩ |
    ⟨v, _, _, hroom, _, hv, ⟨_, heq⟩ | ⟨hroom2, heq⟩⟩
  · rw [h] at heq; simp at heq
  · rw [h] at heq
    exact congrArg Prod.fst heq
  · rw [h] at heq; simp at heq
  · rw [h] at heq
    exact congrArg Prod.fst heq
  · rw [h] at heq; simp at heq
  · -- retry failure is impossible in an invariant-satisfying state
    exfalso
    have hlen := dropIds_single_length hInv.1 (selectVictim_mem hv)
    have hcap := hInv.2.2.2
    omega

lemma processInsert_eq (st : PoolState) (tx : Tx) (prov : Provenance) :
    processInsert st tx prov
      = ((insert st tx prov).1, (insert st tx prov).2,
         statusEventsOfInsert tx (insert st tx prov).2,
         gossipEvents prov (insert st tx prov).2) := by
  rcases h : insert st tx prov with ⟨a, b⟩
  simp [processInsert, h]

lemma disjointSpends_forall {l : List PooledTx} (h : DisjointSpends l) :
    ∀ p ∈ l, ∀ q ∈ l, p.tx ≠ q.tx → ∀ u ∈ p.tx.inputs, u ∉ q.tx.inputs := by
  intro p hp q hq hne
  have hsym : Symmetric fun p q : PooledTx =>
      ∀ u ∈ p.tx.inputs, u ∉ q.tx.inputs := by
    intro a b hab u hub hua
    exact hab u hua hub
  exact List.Pairwise.forall hsym h hp hq fun hc => hne (congrArg PooledTx.tx hc)

/-! ### Claim theorems for the pool engine -/

/-- C1: every successful admission with provenance `Local` emits exactly one
`BroadcastNewTransaction` event carrying the transaction to the outbound
gossip channel; every successful admission with provenance `Network` emits
nothing; and a rejected insertion emits nothing, whatever the provenance. -/
theorem gossip_loop_prevention (st : PoolState) (tx : Tx) :
    (∀ out, (processInsert st tx .Local).2.1 = .ok out →
      (processInsert st tx .Local).2.2.2
        = [P2pRequestEvent.BroadcastNewTransaction tx]) ∧
    (∀ out, (processInsert st tx .Network).2.1 = .ok out →
      (processInsert st tx .Network).2.2.2 = []) ∧
    (∀ prov e, (processInsert st tx prov).2.1 = .error e →
      (processInsert st tx prov).2.2.2 = []) := by
  refine ⟨?_, ?_, ?_⟩
  · intro out h
    rw [processInsert_eq] at h ⊢
    simp only at h
    rcases hres : (insert st tx Provenance.Local).2 with e | o
    · rw [hres] at h; cases h
    · have : o = ⟨tx⟩ := insert_ok_inserted hres
      subst this
      simp [hres, gossipEvents]
  · intro out h
    rw [processInsert_eq] at h ⊢
    simp only at h
    rcases hres : (insert st tx Provenance.Network).2 with e | o
    · rw [hres] at h; cases h
    · simp [hres, gossipEvents]
  · intro prov e h
    rw [processInsert_eq] at h ⊢
    simp only at h
    rcases hres : (insert st tx prov).2 with e' | o
    · simp [hres, gossipEvents]
    · rw [hres] at h; cases h

/-- C1 witness: inserting a transaction into an empty pool locally emits
exactly its broadcast; inserting it from the network emits nothing. -/
theorem gossip_loop_prevention_witness :
    (processInsert (emptyPool 1) ⟨[0], 1, 0⟩ .Local).2.2.2
      = [P2pRequestEvent.BroadcastNewTransaction ⟨[0], 1, 0⟩] ∧
    (processInsert (emptyPool 1) ⟨[0], 1, 0⟩ .Network).2.2.2 = [] :=
  ⟨(gossip_loop_prevention (emptyPool 1) ⟨[0], 1, 0⟩).1 ⟨⟨[0], 1, 0⟩⟩
      (by rfl),
   (gossip_loop_prevention (emptyPool 1) ⟨[0], 1, 0⟩).2.1 ⟨⟨[0], 1, 0⟩⟩
      (by rfl)⟩

/-- C2: at every reachable pool state, the consumed-UTXO sets of distinct
pending transactions are pairwise disjoint, and both `insert` and `remove`
preserve this. -/
theorem pending_no_double_spend (st : PoolState) (h : Reachable st) :
    (∀ p ∈ st.pending, ∀ q ∈ st.pending, p.tx ≠ q.tx →
      ∀ u ∈ p.tx.inputs, u ∉ q.tx.inputs) ∧
    (∀ tx prov, ∀ p ∈ (insert st tx prov).1.pending,
      ∀ q ∈ (insert st tx prov).1.pending, p.tx ≠ q.tx →
      ∀ u ∈ p.tx.inputs, u ∉ q.tx.inputs) ∧
    (∀ ids, ∀ p ∈ (remove st ids).1.pending,
      ∀ q ∈ (remove st ids).1.pending, p.tx ≠ q.tx →
      ∀ u ∈ p.tx.inputs, u ∉ q.tx.inputs) := by
  have hInv := poolInv_reachable h
  refine ⟨disjointSpends_forall hInv.2.1, ?_, ?_⟩
  · intro tx prov
    exact disjointSpends_forall (poolInv_insert hInv tx prov).2.1
  · intro ids
    exact disjointSpends_forall (poolInv_remove hInv ids).2.1

/-- C2 witness: in a concrete reachable pool holding two admitted
transactions, UTXO 0 consumed by the first entry is not consumed by the
second. -/
theorem pending_no_double_spend_witness :
    (0 : Nat) ∉ (Tx.mk [1] 1 1).inputs :=
  (pending_no_double_spend _
    (Reachable.step_insert ⟨[1], 1, 1⟩ .Local
      (Reachable.step_insert ⟨[0], 1, 0⟩ .Local (Reachable.init 2)))).1
    ⟨⟨[0], 1, 0⟩, .Local, .Submitted, 0⟩ (by decide)
    ⟨⟨[1], 1, 1⟩, .Local, .Submitted, 1⟩ (by decide)
    (by decide) 0 (by decide)

/-- C3: re-inserting a transaction whose id is already pending with
identical content succeeds with the same outcome, leaves the pool state
unchanged, and the Pending Set holds exactly one entry for that id. -/
theorem insert_idempotent (st : PoolState) (tx : Tx)
    (prov prov₂ : Provenance) (hInv : PoolInv st) (out : InsertionOutcome)
    (hok : (insert st tx prov).2 = .ok out) :
    insert (insert st tx prov).1 tx prov₂ = ((insert st tx prov).1, .ok out) ∧
    ((insert st tx prov).1.pending.filter fun p => p.tx = tx).length = 1 := by
  have hout : out = ⟨tx⟩ := insert_ok_inserted hok
  subst hout
  have hmem := insert_ok_mem hok
  refine ⟨insert_duplicate prov₂ hmem, ?_⟩
  have hInv' := poolInv_insert hInv tx prov
  rcases hmem with ⟨p, hp, hptx⟩
  have := filter_eq_tx_length_one hInv'.1 hp
  rw [hptx] at this
  exact this

/-- C3 witness: a duplicated insert of a concrete transaction into an
initially empty pool is a no-op success and leaves one entry. -/
theorem insert_idempotent_witness :
    insert (insert (emptyPool 2) ⟨[0], 1, 0⟩ .Local).1 ⟨[0], 1, 0⟩ .Network
      = ((insert (emptyPool 2) ⟨[0], 1, 0⟩ .Local).1, .ok ⟨⟨[0], 1, 0⟩⟩) ∧
    ((insert (emptyPool 2) ⟨[0], 1, 0⟩ .Local).1.pending.filter
      fun p => p.tx = ⟨[0], 1, 0⟩).length = 1 :=
  insert_idempotent (emptyPool 2) ⟨[0], 1, 0⟩ .Local .Network
    (poolInv_empty 2) ⟨⟨[0], 1, 0⟩⟩ (by rfl)

/-- C4: when some distinct pending transaction consumes a UTXO reference
that the candidate also consumes, `insert` fails with `ConflictingInput`
naming exactly the conflicting pending ids, and the pool state is
unchanged. -/
theorem insert_conflict_rejected (st : PoolState) (tx : Tx)
    (prov : Provenance) (hInv : PoolInv st)
    (hex : ∃ p ∈ st.pending, p.tx ≠ tx ∧ ∃ u ∈ p.tx.inputs, u ∈ tx.inputs) :
    insert st tx prov
        = (st, .error (.ConflictingInput (conflicts tx st.pending))) ∧
    conflicts tx st.pending ≠ [] ∧
    (∀ i, i ∈ conflicts tx st.pending ↔
      ∃ p ∈ st.pending, p.tx = i ∧ ∃ u ∈ p.tx.inputs, u ∈ tx.inputs) := by
  obtain ⟨p, hp, hpne, u, hup, hut⟩ := hex
  have hfresh : ∀ q ∈ st.pending, q.tx ≠ tx := by
    intro q hq hqtx
    have hdq : p.tx ≠ q.tx := hqtx ▸ hpne
    have := disjointSpends_forall hInv.2.1 p hp q hq hdq u hup
    rw [hqtx] at this
    exact this hut
  have hne : conflicts tx st.pending ≠ [] := by
    intro hnil
    have := mem_conflicts.mpr ⟨p, hp, rfl, u, hup, hut⟩
    rw [hnil] at this
    cases this
  exact ⟨insert_conflict_eq prov hfresh hne, hne, fun i => mem_conflicts⟩

/-- C4 witness: transaction B consuming the same UTXO as pending A is
rejected with A's id and the state is unchanged. -/
theorem insert_conflict_rejected_witness :
    insert (insert (emptyPool 2) ⟨[7], 1, 0⟩ .Local).1 ⟨[7], 1, 1⟩ .Local
      = ((insert (emptyPool 2) ⟨[7], 1, 0⟩ .Local).1,
         .error (.ConflictingInput
           (conflicts ⟨[7], 1, 1⟩
             (insert (emptyPool 2) ⟨[7], 1, 0⟩ .Local).1.pending))) :=
  (insert_conflict_rejected (insert (emptyPool 2) ⟨[7], 1, 0⟩ .Local).1
    ⟨[7], 1, 1⟩ .Local
    (poolInv_insert (poolInv_empty 2) ⟨[7], 1, 0⟩ .Local)
    ⟨⟨⟨[7], 1, 0⟩, .Local, .Submitted, 0⟩, by decide, by decide,
      7, by decide, by decide⟩).1

/-- C5: `find` answers with one slot per requested id in request order;
slot `k` holds `some p` exactly when the `k`-th requested id is pending
(with `p` the stored entry) and `none` otherwise, and unknown ids never
fail the call; a transaction admitted via the gossip path is afterwards
returned by `find` of its id. -/
theorem find_request_order (st : PoolState) (ids : List Tx) :
    (find st ids).length = ids.length ∧
    (∀ (k : Nat) (i : Tx), ids[k]? = some i →
      ((∃ p ∈ st.pending, p.tx = i) →
        ∃ p, (find st ids)[k]? = some (some p) ∧ p ∈ st.pending ∧ p.tx = i) ∧
      ((∀ p ∈ st.pending, p.tx ≠ i) → (find st ids)[k]? = some none)) ∧
    (∀ tx out, (insert st tx .Network).2 = .ok out →
      ∃ p, find (insert st tx .Network).1 [tx] = [some p] ∧
        p ∈ (insert st tx .Network).1.pending ∧ p.tx = tx) := by
  refine ⟨by simp [find], ?_, ?_⟩
  · intro k i hk
    have hmap : (find st ids)[k]?
        = some (st.pending.find? fun p => p.tx = i) := by
      simp [find, List.getElem?_map, hk]
    constructor
    · rintro ⟨p, hp, hptx⟩
      have hsome : (st.pending.find? fun p => p.tx = i).isSome := by
        rw [List.find?_isSome]
        exact ⟨p, hp, by simp [hptx]⟩
      rcases Option.isSome_iff_exists.mp hsome with ⟨q, hq⟩
      refine ⟨q, by rw [hmap, hq], List.mem_of_find?_eq_some hq, ?_⟩
      simpa using List.find?_some hq
    · intro hnone
      have hfindnone : (st.pending.find? fun p => p.tx = i) = none := by
        rw [List.find?_eq_none]
        intro p hp
        simp [hnone p hp]
      rw [hmap, hfindnone]
  · intro tx out hok
    rcases insert_ok_mem hok with ⟨p, hp, hptx⟩
    have hsome :
        ((insert st tx .Network).1.pending.find? fun q => q.tx = tx).isSome := by
      rw [List.find?_isSome]
      exact ⟨p, hp, by simp [hptx]⟩
    rcases Option.isSome_iff_exists.mp hsome with ⟨q, hq⟩
    refine ⟨q, by simp [find, hq], List.mem_of_find?_eq_some hq, ?_⟩
    simpa using List.find?_some hq

/-- C5 witness: the slot contract at a concrete state and id list with one
pending id and one unknown id. -/
theorem find_request_order_witness :
    ∃ p, find (insert (emptyPool 1) ⟨[3], 1, 0⟩ .Network).1 [⟨[3], 1, 0⟩]
        = [some p] ∧
      p ∈ (insert (emptyPool 1) ⟨[3], 1, 0⟩ .Network).1.pending ∧
      p.tx = ⟨[3], 1, 0⟩ :=
  (find_request_order (emptyPool 1) []).2.2 ⟨[3], 1, 0⟩ ⟨⟨[3], 1, 0⟩⟩ (by rfl)

/-- C6: at every reachable state the Conflict Index relates a UTXO
reference to an id exactly when the pending transaction with that id
consumes that reference; a failed insert leaves the state unchanged, and
a successful insert either is the duplicate no-op or extends the Pending
Set and the Conflict Index with the transaction, status `Submitted`, in
one atomic step. -/
theorem insert_atomic_conflict_index (st : PoolState) (h : Reachable st) :
    (∀ u i, (u, i) ∈ st.conflictIndex ↔
      ∃ p ∈ st.pending, p.tx = i ∧ u ∈ p.tx.inputs) ∧
    (∀ tx prov st' e, insert st tx prov = (st', .error e) → st' = st) ∧
    (∀ tx prov st' out, insert st tx prov = (st', .ok out) →
      ((∃ p ∈ st.pending, p.tx = tx) ∧ st' = st) ∨
      (∃ stb : PoolState,
        st'.pending = stb.pending ++
          [{ tx := tx, provenance := prov, status := .Submitted,
             insertTime := stb.clock }] ∧
        st'.conflictIndex
          = stb.conflictIndex ++ (tx.inputs.map fun u => (u, tx)) ∧
        (∃ p ∈ st'.pending, p.tx = tx ∧ p.status = .Submitted) ∧
        ∀ u ∈ tx.inputs, (u, tx) ∈ st'.conflictIndex)) := by
  have hInv := poolInv_reachable h
  refine ⟨?_, ?_, ?_⟩
  · intro u i
    rw [hInv.2.2.1]
    exact mem_indexOf
  · intro tx prov st' e heq
    exact insert_error_unchanged hInv heq
  · intro tx prov st' out heq
    rcases insert_cases st tx prov with
      ⟨hm, heq'⟩ | ⟨_, _, heq'⟩ | ⟨_, _, _, heq'⟩ | ⟨_, _, _, _, heq'⟩ |
      ⟨v, _, _, _, _, _, ⟨_, heq'⟩ | ⟨_, heq'⟩⟩
    · rw [heq] at heq'
      exact Or.inl ⟨hm, congrArg Prod.fst heq'⟩
    · rw [heq] at heq'; simp at heq'
    · rw [heq] at heq'
      have hst' : st' = admitTx st tx prov := congrArg Prod.fst heq'
      subst hst'
      refine Or.inr ⟨st, rfl, rfl, ?_, ?_⟩
      · exact ⟨_, List.mem_append_right _ (List.mem_singleton_self _),
          rfl, rfl⟩
      · intro u hu
        exact List.mem_append_right _ (List.mem_map.mpr ⟨u, hu, rfl⟩)
    · rw [heq] at heq'; simp at heq'
    · rw [heq] at heq'
      have hst' : st' = admitTx (dropIds st [v.tx]) tx prov :=
        congrArg Prod.fst heq'
      subst hst'
      refine Or.inr ⟨dropIds st [v.tx], rfl, rfl, ?_, ?_⟩
      · exact ⟨_, List.mem_append_right _ (List.mem_singleton_self _),
          rfl, rfl⟩
      · intro u hu
        exact List.mem_append_right _ (List.mem_map.mpr ⟨u, hu, rfl⟩)
    · rw [heq] at heq'; simp at heq'

/-- C6 witness: the conflict-index contract applied at a concrete
reachable state. -/
theorem insert_atomic_conflict_index_witness :
    (7, Tx.mk [7] 1 0) ∈
      (insert (emptyPool 2) ⟨[7], 1, 0⟩ .Local).1.conflictIndex :=
  ((insert_atomic_conflict_index (insert (emptyPool 2) ⟨[7], 1, 0⟩ .Local).1
      (Reachable.step_insert _ _ (Reachable.init 2))).1 7 ⟨[7], 1, 0⟩).mpr
    ⟨⟨⟨[7], 1, 0⟩, .Local, .Submitted, 0⟩, by decide, by decide, by decide⟩

/-- C7: at capacity, if the incoming transaction has lower priority than
every eviction candidate the insert fails with `PoolFull` and the state
is untouched; otherwise the lowest-priority pending transaction (lowest
gas price first, oldest insertion time as tie-break) is evicted and the
admission succeeds on its single retry. -/
theorem insert_at_capacity (st : PoolState) (tx : Tx) (prov : Provenance)
    (hInv : PoolInv st) (hcap : st.pending.length = st.capacity)
    (hfresh : ∀ p ∈ st.pending, p.tx ≠ tx)
    (hconf : conflicts tx st.pending = []) :
    ((st.pending.all fun p => tx.gasPrice < p.tx.gasPrice) = true →
      insert st tx prov = (st, .error .PoolFull)) ∧
    ((st.pending.all fun p => tx.gasPrice < p.tx.gasPrice) = false →
      ∃ v, selectVictim st.pending = some v ∧ v ∈ st.pending ∧
        (∀ p ∈ st.pending, lowerPriority p v = false) ∧
        insert st tx prov
          = (admitTx (dropIds st [v.tx]) tx prov, .ok ⟨tx⟩)) := by
  have hdup : (st.pending.any fun p => p.tx = tx) = false := by
    simpa using hfresh
  have hroom : ¬ st.pending.length < st.capacity := by omega
  constructor
  · intro hall
    simp [insert, hdup, hconf, hroom, hall]
  · intro hall
    have hne : st.pending ≠ [] := by
      intro hnil
      rw [hnil] at hall
      simp at hall
    rcases selectVictim_isSome hne with ⟨v, hv⟩
    have hvmem := selectVictim_mem hv
    have hlen := dropIds_single_length hInv.1 hvmem
    have hroom2 : (dropIds st [v.tx]).pending.length < st.capacity := by
      omega
    refine ⟨v, hv, hvmem, selectVictim_min hv, ?_⟩
    simp [insert, hdup, hconf, hroom, hall, hv]
    simpa [dropIds] using hroom2

/-- C7 witness: a full one-slot pool with a gas price 5 transaction
rejects a gas price 3 candidate with `PoolFull`, unchanged. -/
theorem insert_at_capacity_witness :
    insert (insert (emptyPool 1) ⟨[1], 5, 0⟩ .Local).1 ⟨[2], 3, 1⟩ .Local
      = ((insert (emptyPool 1) ⟨[1], 5, 0⟩ .Local).1, .error .PoolFull) :=
  (insert_at_capacity (insert (emptyPool 1) ⟨[1], 5, 0⟩ .Local).1
    ⟨[2], 3, 1⟩ .Local (poolInv_insert (poolInv_empty 1) ⟨[1], 5, 0⟩ .Local)
    (by decide) (by decide) (by decide)).1 (by decide)

/-- C8: `Submitted` is the sole status a stream may open with for an id,
a status following `Submitted` is terminal, and every valid emitted
sequence — hence every subscriber-observed subsequence of it — is a
subsequence of `[Submitted, terminal]` for some terminal status, with no
reordering and no second terminal. -/
theorem status_lifecycle (es obs : List TxStatus)
    (hval : validSeq none es = true) (hobs : obs.Sublist es) :
    (∀ s, statusStep none s = true ↔ s = TxStatus.Submitted) ∧
    (∀ cur s, statusStep (some cur) s = true →
      cur = TxStatus.Submitted ∧ s.isTerminal = true) ∧
    ∃ t, t.isTerminal = true ∧ es.Sublist [TxStatus.Submitted, t] ∧
      obs.Sublist [TxStatus.Submitted, t] := by
  refine ⟨?_, ?_, ?_⟩
  · intro s
    cases s <;> simp [statusStep]
  · intro cur s hstep
    cases cur <;> cases s <;>
      simp_all [statusStep, TxStatus.isTerminal]
  · have hshape : es = [] ∨ es = [TxStatus.Submitted] ∨
        ∃ t, TxStatus.isTerminal t = true ∧ es = [TxStatus.Submitted, t] := by
      match es, hval, hobs with
      | [], _, _ => exact Or.inl rfl
      | [s], hval, _ =>
        have hs : statusStep none s = true := by
          simpa [validSeq] using hval
        cases s <;> simp [statusStep] at hs
        exact Or.inr (Or.inl rfl)
      | s1 :: s2 :: rest, hval, _ =>
        have h1 : statusStep none s1 = true ∧
            statusStep (some s1) s2 = true ∧
            validSeq (some s2) rest = true := by
          simpa [validSeq, Bool.and_eq_true] using hval
        have hs1 : s1 = TxStatus.Submitted := by
          have hx := h1.1
          cases s1
          · rfl
          all_goals simp [statusStep] at hx
        subst hs1
        have hterm : s2.isTerminal = true := by
          have hx := h1.2.1
          cases s2
          · simp [statusStep, TxStatus.isTerminal] at hx
          all_goals rfl
        cases rest with
        | nil => exact Or.inr (Or.inr ⟨s2, hterm, rfl⟩)
        | cons s3 r =>
          exfalso
          have h3 : statusStep (some s2) s3 = true := by
            have hx := h1.2.2
            simp only [validSeq, Bool.and_eq_true] at hx
            exact hx.1
          cases s2
          · simp [TxStatus.isTerminal] at hterm
          all_goals simp [statusStep] at h3
    rcases hshape with rfl | rfl | ⟨t, hterm, rfl⟩
    · exact ⟨TxStatus.Success, rfl, List.nil_sublist _,
        List.Sublist.trans hobs (List.nil_sublist _)⟩
    · refine ⟨TxStatus.Success, rfl, ?_, ?_⟩
      · exact List.Sublist.cons₂ _ (List.nil_sublist _)
      · exact List.Sublist.trans hobs
          (List.Sublist.cons₂ _ (List.nil_sublist _))
    · exact ⟨t, hterm, List.Sublist.refl _, hobs⟩

/-- C8 witness: a concrete emitted sequence `[Submitted, Success]` and the
observed subsequence `[Success]`. -/
theorem status_lifecycle_witness :
    ∃ t, t.isTerminal = true ∧
      ([TxStatus.Submitted, TxStatus.Success]).Sublist
        [TxStatus.Submitted, t] ∧
      ([TxStatus.Success]).Sublist [TxStatus.Submitted, t] :=
  (status_lifecycle [TxStatus.Submitted, TxStatus.Success] [TxStatus.Success]
    (by decide) ((List.Sublist.cons₂ _ (List.nil_sublist _)).cons _)).2.2

end Pool

/-! ### Claim theorems for the wallet test-client -/

lemma ownsCoinLoop_diverges {page : List ClientCoin} {target : UtxoId}
    (hne : page ≠ [])
    (hmiss : (page.any fun coin => coin.utxo_id = target) = false) :
    ∀ (fuel : Nat) (fp : Bool) (res : List ClientCoin),
      (fp = true ∨ res ≠ []) → ownsCoinLoop page target fp res fuel = none := by
  intro fuel
  induction fuel with
  | zero =>
    intro fp res _
    rfl
  | succ n ih =>
    intro fp res hguard
    have hg : (fp || !res.isEmpty) = true := by
      rcases hguard with rfl | hres
      · simp
      · cases res with
        | nil => exact absurd rfl hres
        | cons a l => simp
    simp only [ownsCoinLoop, hg, if_true, hmiss, Bool.false_eq_true,
      if_false]
    exact ih false page (Or.inr hne)

/-- C9: `owns_coin` always requests the first coins page (cursor `None`),
so it returns `true` as soon as the queried UTXO is on the first page,
returns `false` when the first page is empty, and loops forever — never
terminating within any fuel bound — whenever the first page is non-empty
but lacks the queried UTXO. -/
theorem owns_coin_cursor_stuck (page : List ClientCoin) (target : UtxoId) :
    ((page.any fun coin => coin.utxo_id = target) = true →
      ∀ fuel, 1 ≤ fuel → owns_coin page target fuel = some true) ∧
    (page = [] →
      ∀ fuel, 2 ≤ fuel → owns_coin page target fuel = some false) ∧
    (page ≠ [] → (page.any fun coin => coin.utxo_id = target) = false →
      ∀ fuel, owns_coin page target fuel = none) := by
  refine ⟨?_, ?_, ?_⟩
  · intro hhit fuel hfuel
    cases fuel with
    | zero => omega
    | succ n => simp [owns_coin, ownsCoinLoop, hhit]
  · intro hempty fuel hfuel
    subst hempty
    cases fuel with
    | zero => omega
    | succ n =>
      cases n with
      | zero => omega
      | succ m => simp [owns_coin, ownsCoinLoop]
  · intro hne hmiss fuel
    exact ownsCoinLoop_diverges hne hmiss fuel true [] (Or.inl rfl)

/-- C9 witness: a present UTXO is found with one page fetch, an empty
first page answers `false`, and a non-empty page without the UTXO makes
the loop spin out any fuel budget. -/
theorem owns_coin_cursor_stuck_witness :
    owns_coin [⟨⟨5, 0⟩⟩] ⟨5, 0⟩ 1 = some true ∧
    owns_coin [] ⟨5, 0⟩ 2 = some false ∧
    owns_coin [⟨⟨5, 0⟩⟩] ⟨6, 0⟩ 9 = none :=
  ⟨(owns_coin_cursor_stuck [⟨⟨5, 0⟩⟩] ⟨5, 0⟩).1 (by decide) 1 (by decide),
   (owns_coin_cursor_stuck [] ⟨5, 0⟩).2.1 rfl 2 (by decide),
   (owns_coin_cursor_stuck [⟨⟨5, 0⟩⟩] ⟨6, 0⟩).2.2 (by decide) (by decide) 9⟩

/-- C10: `transfer_tx` always puts the Coin output paying the destination
at output index 0 and the sender's Change output at index 1, so the
`transferred_utxo` that `transfer` reports — `UtxoId::new(tx_id, 0)` —
refers to the destination's coin. -/
theorem transfer_outputs (self_address destination transfer_amount : Nat)
    (asset_id : Option Nat) (coins : List CoinType) (tx_id : Nat)
    (status : TransactionStatus) :
    (transfer_tx self_address destination transfer_amount asset_id
        coins).outputs
      = [Output.Coin destination transfer_amount (asset_id.getD 0),
         Output.Change self_address 0 (asset_id.getD 0)] ∧
    (transfer_tx self_address destination transfer_amount asset_id
        coins).outputs[0]?
      = some (Output.Coin destination transfer_amount (asset_id.getD 0)) ∧
    (transfer_tx self_address destination transfer_amount asset_id
        coins).outputs[1]?
      = some (Output.Change self_address 0 (asset_id.getD 0)) ∧
    (transfer self_address destination transfer_amount asset_id coins tx_id
        status).2.transferred_utxo = UtxoId.mk tx_id 0 ∧
    (transfer self_address destination transfer_amount asset_id coins tx_id
        status).1.outputs[(transfer self_address destination transfer_amount
            asset_id coins tx_id status).2.transferred_utxo.output_index]?
      = some (Output.Coin destination transfer_amount (asset_id.getD 0)) :=
  ⟨rfl, rfl, rfl, rfl, rfl⟩

end FuelCore
